import Mathlib

/-!
Shallow embedding of the tsri memory-mapped-register library
(src/include/tsri). Register values are 32-bit unsigned integers,
modelled as `Nat` with explicit `% 2 ^ 32` wherever the C++ `uint32_t`
arithmetic can wrap. Each register operation is modelled as a function
from the register description, the call arguments and the register
current raw value to the list of hardware accesses (loads and stores,
with their addresses and stored values) that the operation issues, in
order. Results of read operations are returned next to the access list.
-/

namespace tsri

/-- The five field access kinds of `fields/field_types.hpp`. -/
inductive field_type
| read_only
| write_only
| read_write
| self_clearing
| write_clear
deriving DecidableEq

/-- `field_types::is_readable` (field_types.hpp, lines 74-76): read_only,
read_write, self_clearing and write_clear are readable. -/
def is_readable (t : field_type) : Bool :=
  t == field_type.read_only || t == field_type.read_write ||
  t == field_type.self_clearing || t == field_type.write_clear

/-- `field_types::is_settable` (field_types.hpp, lines 88-90). -/
def is_settable (t : field_type) : Bool :=
  t == field_type.write_only || t == field_type.read_write ||
  t == field_type.self_clearing || t == field_type.write_clear

/-- `field_types::is_clearable` (field_types.hpp, line 103). -/
def is_clearable (t : field_type) : Bool :=
  t == field_type.read_write || t == field_type.write_clear

/-- `field_types::is_bit_clearable` (field_types.hpp, line 116). -/
def is_bit_clearable (t : field_type) : Bool :=
  t == field_type.read_write

/-- `field_types::is_bit_togglable` (field_types.hpp, line 129). -/
def is_bit_togglable (t : field_type) : Bool :=
  t == field_type.read_write

/-- `field::is_write_clear` (field.hpp, line 100). -/
def is_write_clear (t : field_type) : Bool :=
  t == field_type.write_clear

/-- Modelled from the spec: `register_base.hpp` line 133 folds
`RegisterFields::is_write_only` over the fields of the register, but no field
class in src defines an `is_write_only` member; the doc comment of
`is_bit_position_in_any_write_only_field` and the spec make the intent
clear (true exactly for write-only fields). -/
def is_write_only (t : field_type) : Bool :=
  t == field_type.write_only

/-- The template parameters of `fields/field.hpp`: start bit, length in
bits, access kind, reset value. -/
structure field where
  StartBit : Nat
  LengthInBits : Nat
  TypeOfField : field_type
  FieldValueOnReset : Nat
deriving DecidableEq

/-- `registers::num_bits_in_register` (register_base.hpp, line 36). -/
def num_bits_in_register : Nat := 32

/-- `field::bitmask` (field.hpp, lines 223-241): all-ones right-shifted
by `32 - LengthInBits`, then left-shifted by `StartBit`, in `uint32_t`
arithmetic. -/
def bitmask (f : field) : Nat :=
  (((2 ^ num_bits_in_register - 1) >>> (num_bits_in_register - f.LengthInBits))
    <<< f.StartBit) % 2 ^ num_bits_in_register

/-- `field::get_register_value_from_field_value` (field.hpp, lines
250-254): `(value << StartBit) & bitmask` in `uint32_t` arithmetic. -/
def get_register_value_from_field_value (f : field) (v : Nat) : Nat :=
  ((v <<< f.StartBit) % 2 ^ num_bits_in_register) &&& bitmask f

/-- `field::get_field_value_from_register_value` (field.hpp, lines
262-266): `(value & bitmask) >> StartBit`. -/
def get_field_value_from_register_value (f : field) (v : Nat) : Nat :=
  (v &&& bitmask f) >>> f.StartBit

/-- `field::get_field_value_from_register_value_no_bitmask` (field.hpp,
lines 275-279): `value >> StartBit`. -/
def get_field_value_from_register_value_no_bitmask (f : field) (v : Nat) : Nat :=
  v >>> f.StartBit

/-- `field::clear_value` (field.hpp, line 205): 1 for write_clear
fields, 0 otherwise. -/
def clear_value (f : field) : Nat :=
  if is_write_clear f.TypeOfField then 1 else 0

/-- `field_base::is_bit_position_in_field` (field_base.hpp, line 121). -/
def is_bit_position_in_field (f : field) (p : Nat) : Bool :=
  decide (p ≥ f.StartBit) && decide (p < f.LengthInBits + f.StartBit)

/-- Well-formedness of a field layout: at least one bit wide and
contained in the 32-bit register (spec §3 FieldDescriptor
invariant). -/
def field_wf (f : field) : Prop :=
  1 ≤ f.LengthInBits ∧ f.StartBit + f.LengthInBits ≤ 32

instance (f : field) : Decidable (field_wf f) := by
  unfold field_wf
  infer_instance

/-- The template parameters shared by the register classes
(registers/register_read_write.hpp, lines 27-32). -/
structure register where
  PeripheralBaseAddress : Nat
  PeripheralBaseAddressOffset : Nat
  ValueOnReset : Nat
  SupportsAtomicBitOperations : Bool
  RegisterFields : List field
deriving DecidableEq

/-- Atomic XOR-on-write address offset (register_base.hpp, line 64). -/
def atomic_xor_offset : Nat := 0x1000

/-- Atomic set-on-write address offset (register_base.hpp, line 66). -/
def atomic_set_offset : Nat := 0x2000

/-- Atomic clear-on-write address offset (register_base.hpp, line 68). -/
def atomic_clear_offset : Nat := 0x3000

/-- `register_base::register_address` (base + offset). -/
def register_address (r : register) : Nat :=
  r.PeripheralBaseAddress + r.PeripheralBaseAddressOffset

/-- `register_base::register_address_atomic_xor`. -/
def register_address_atomic_xor (r : register) : Nat :=
  register_address r + atomic_xor_offset

/-- `register_base::register_address_atomic_set`. -/
def register_address_atomic_set (r : register) : Nat :=
  register_address r + atomic_set_offset

/-- `register_base::register_address_atomic_clear`. -/
def register_address_atomic_clear (r : register) : Nat :=
  register_address r + atomic_clear_offset

/-- One hardware access: an ordered, non-elidable load or store at an
address (register_base.hpp, `reference` / `const_reference` /
`atomic_xor_reference` / `atomic_set_reference` /
`atomic_clear_reference`). -/
inductive access
| load (addr : Nat)
| store (addr : Nat) (value : Nat)
deriving DecidableEq

/-- Address of an access. -/
def access_addr : access → Nat
| access.load a => a
| access.store a _ => a

/-- `register_base::are_fields_in_register` (register_base.hpp, lines
89-91). -/
def are_fields_in_register (r : register) (fs : List field) : Bool :=
  fs.all (fun f => r.RegisterFields.contains f)

/-- `register_base::are_fields_readable` (register_base.hpp, line 99). -/
def are_fields_readable (fs : List field) : Bool :=
  fs.all (fun f => is_readable f.TypeOfField)

/-- `register_base::are_fields_settable` (register_base.hpp, line 107). -/
def are_fields_settable (fs : List field) : Bool :=
  fs.all (fun f => is_settable f.TypeOfField)

/-- `register_base::are_fields_clearable` (register_base.hpp, line 115). -/
def are_fields_clearable (fs : List field) : Bool :=
  fs.all (fun f => is_clearable f.TypeOfField)

/-- `register_base::is_bit_position_in_any_readable_field`
(register_base.hpp, lines 122-124). -/
def is_bit_position_in_any_readable_field (r : register) (p : Nat) : Bool :=
  r.RegisterFields.any (fun f => is_bit_position_in_field f p && is_readable f.TypeOfField)

/-- `register_base::is_bit_position_in_any_settable_field`
(register_base.hpp, lines 140-142). -/
def is_bit_position_in_any_settable_field (r : register) (p : Nat) : Bool :=
  r.RegisterFields.any (fun f => is_bit_position_in_field f p && is_settable f.TypeOfField)

/-- `register_base::is_bit_position_in_any_write_only_field`
(register_base.hpp, lines 131-133); uses the spec-modelled
`is_write_only` since the field classes define no such member. -/
def is_bit_position_in_any_write_only_field (r : register) (p : Nat) : Bool :=
  r.RegisterFields.any (fun f => is_bit_position_in_field f p && is_write_only f.TypeOfField)

/-- 32-bit complement: `~m` on a `uint32_t`. -/
def compl32 (m : Nat) : Nat := m ^^^ (2 ^ num_bits_in_register - 1)

/-- `utility::bit_manipulation::get_bit_positions_bitmask`
(bit_manipulation.hpp, lines 15-19): OR of `1U << p` over the
positions. -/
def get_bit_positions_bitmask (ps : List Nat) : Nat :=
  ps.foldr (fun p a => ((1 <<< p) % 2 ^ num_bits_in_register) ||| a) 0

/-- `(Fields::bitmask | ...)`: OR of the field bitmasks. -/
def combined_mask (fs : List field) : Nat :=
  fs.foldr (fun f a => bitmask f ||| a) 0

/-- `(Fields::get_register_value_from_field_value(values) | ...)`: OR of
the values shifted and masked to their field positions. -/
def combined_values (fvs : List (field × Nat)) : Nat :=
  fvs.foldr (fun fv a => get_register_value_from_field_value fv.1 fv.2 ||| a) 0

/-- `fields_clear_value` of `register_read_write::clear_fields`
(register_read_write.hpp, lines 192-193): OR of each field clear value
shifted and masked to the field position. -/
def combined_clear_values (fs : List field) : Nat :=
  fs.foldr (fun f a => get_register_value_from_field_value f (clear_value f) ||| a) 0

/-- The spec formula for the combined clear value (spec §4.5
clear_fields): ORs in the field value 1 shifted to the start bit for
each write_clear field and 0 for each read_write field. Stated from the
spec wording, to be compared with `combined_clear_values`. -/
def spec_combined_clear_values (fs : List field) : Nat :=
  fs.foldr
    (fun f a => (if f.TypeOfField = field_type.write_clear then 1 <<< f.StartBit else 0) ||| a) 0

/-- `register_read_only::get` (register_read_only.hpp, lines 135-138):
one load at the plain address, returning the raw value. -/
def get (r : register) (current : Nat) : List access × Nat :=
  ([access.load (register_address r)], current)

/-- `register_read_write::set_bits_impl` (register_read_write.hpp, lines
42-55): atomic-set store if supported, else plain read-modify-write OR.
Reached by both the checked `set_bits` and the runtime-argument nested
struct entry point. -/
def set_bits_impl (r : register) (ps : List Nat) (current : Nat) : List access :=
  if r.SupportsAtomicBitOperations then
    [access.store (register_address_atomic_set r) (get_bit_positions_bitmask ps)]
  else
    [access.load (register_address r),
     access.store (register_address r) (get_bit_positions_bitmask ps ||| current)]

/-- `register_read_write::clear_bits_impl` (register_read_write.hpp,
lines 57-70). -/
def clear_bits_impl (r : register) (ps : List Nat) (current : Nat) : List access :=
  if r.SupportsAtomicBitOperations then
    [access.store (register_address_atomic_clear r) (get_bit_positions_bitmask ps)]
  else
    [access.load (register_address r),
     access.store (register_address r) (compl32 (get_bit_positions_bitmask ps) &&& current)]

/-- `register_read_write::toggle_bits_impl` (register_read_write.hpp,
lines 72-85). -/
def toggle_bits_impl (r : register) (ps : List Nat) (current : Nat) : List access :=
  if r.SupportsAtomicBitOperations then
    [access.store (register_address_atomic_xor r) (get_bit_positions_bitmask ps)]
  else
    [access.load (register_address r),
     access.store (register_address r) (get_bit_positions_bitmask ps ^^^ current)]

/-- `register_read_only::is_any_bit_set_impl` (register_read_only.hpp,
lines 95-103): one load, then `(value & bitmask) != 0`. (The GCC-only
single-position branch computes `(value >> p) & 1`, which agrees for
positions below 32.) -/
def is_any_bit_set_impl (r : register) (ps : List Nat) (current : Nat) : List access × Bool :=
  ([access.load (register_address r)],
   (current &&& get_bit_positions_bitmask ps) != 0)

/-- `register_read_only::are_all_bits_set_impl` (register_read_only.hpp,
lines 112-120): one load, then `(value & bitmask) == bitmask`. -/
def are_all_bits_set_impl (r : register) (ps : List Nat) (current : Nat) : List access × Bool :=
  ([access.load (register_address r)],
   (current &&& get_bit_positions_bitmask ps) == get_bit_positions_bitmask ps)

/-- `register_read_only::get_fields` (register_read_only.hpp, lines
207-233): one load; if the register has exactly one field overall, the
single requested field is decoded without the bitmask, otherwise every
requested field is decoded with mask and shift. -/
def get_fields (r : register) (fs : List field) (current : Nat) :
    List access × List (field × Nat) :=
  if r.RegisterFields.length = 1 then
    ([access.load (register_address r)],
     match fs with
     | [] => []
     | f :: _ => [(f, get_field_value_from_register_value_no_bitmask f current)])
  else
    ([access.load (register_address r)],
     fs.map (fun f => (f, get_field_value_from_register_value f current)))

/-- `register_read_write::set_fields` (register_read_write.hpp, lines
147-160): one load, then one store of
`field_values | (~combined_mask & loaded)` at the plain address. -/
def set_fields (r : register) (fvs : List (field × Nat)) (current : Nat) : List access :=
  [access.load (register_address r),
   access.store (register_address r)
     (combined_values fvs ||| (compl32 (combined_mask (fvs.map Prod.fst)) &&& current))]

/-- `register_write_base::set_fields_overwrite` (register_write_base.hpp,
lines 76-88): no load; one store of
`field_values | (~combined_mask & ValueOnReset)` at the plain address. -/
def set_fields_overwrite (r : register) (fvs : List (field × Nat)) : List access :=
  [access.store (register_address r)
     (combined_values fvs ||| (compl32 (combined_mask (fvs.map Prod.fst)) &&& r.ValueOnReset))]

/-- `register_read_write::clear_fields` (register_read_write.hpp, lines
172-197): one atomic-clear store of the combined bitmask when atomic
operations are supported and no field is write_clear; otherwise a plain
read-modify-write with the combined clear values ORed in. -/
def clear_fields (r : register) (fs : List field) (current : Nat) : List access :=
  if r.SupportsAtomicBitOperations && !(fs.any (fun f => is_write_clear f.TypeOfField)) then
    [access.store (register_address_atomic_clear r) (combined_mask fs)]
  else
    [access.load (register_address r),
     access.store (register_address r)
       ((compl32 (combined_mask fs) &&& current) ||| combined_clear_values fs)]

/-- `register_write_only::set_bits_impl` (register_write_only.hpp, lines
47-53): a single plain store of the bitmask of the given positions, never touching
the atomic set address. -/
def write_only_set_bits (r : register) (ps : List Nat) : List access :=
  [access.store (register_address r) (get_bit_positions_bitmask ps)]

/-- The nested raw store entry point of `register_write_base`
(register_write_base.hpp, lines 45-56): stores the given value at the
plain address with no validation at all. -/
def unchecked_set (r : register) (v : Nat) : List access :=
  [access.store (register_address r) v]

/-- Field A of the spec §8 get_fields scenario: bits [0,4),
read_write, reset 0. -/
def fieldA : field := ⟨0, 4, field_type.read_write, 0⟩

/-- Field B of the spec §8 get_fields scenario: bits [4,8), read_only,
reset 0xA. -/
def fieldB : field := ⟨4, 4, field_type.read_only, 0xA⟩

/-- Register of the spec §8 get_fields scenario. -/
def regAB : register := ⟨0x40000000, 0, 0, false, [fieldA, fieldB]⟩

/-- Field C of the spec §8 clear_fields scenario: bits [28,32),
write_clear. -/
def fieldC : field := ⟨28, 4, field_type.write_clear, 0⟩

/-- Register of the spec §8 clear_fields scenario: atomic operations
supported. -/
def regC : register := ⟨0x40000000, 0, 0, true, [fieldC]⟩

/-- A read-write register with a read-write field and a write_clear
field, atomic operations supported (the layout of test.cpp
test_register_rw, restricted to fields at [0,4) and [28,32)). -/
def regRW : register := ⟨0x14000000, 0x04, 0, true, [fieldA, fieldC]⟩

/-- A read-write field at bits [4,8), disjoint from `fieldA`. -/
def fieldB_rw : field := ⟨4, 4, field_type.read_write, 0⟩

/-- A register with two disjoint settable fields and a nonzero reset
value. -/
def regDisj : register := ⟨0x40001000, 0, 0x12345678, false, [fieldA, fieldB_rw]⟩

/-- A read-write field at bits [2,6), overlapping `fieldA`. -/
def fieldB_overlap : field := ⟨2, 4, field_type.read_write, 0⟩

/-- A register with two distinct but overlapping settable fields
(overlapping ranges are not rejected by the source, spec §3). -/
def regOverlap : register := ⟨0x40002000, 0, 0, false, [fieldA, fieldB_overlap]⟩

/-- A one-bit write-only field at bit 0. -/
def fieldWO : field := ⟨0, 1, field_type.write_only, 0⟩

/-- A write-only register with atomic operations supported. -/
def regWO : register := ⟨0x40003000, 0, 0, true, [fieldWO]⟩

/-- A full-width read-write field: bits [0,32). -/
def field32 : field := ⟨0, 32, field_type.read_write, 0⟩

/-! Helper lemmas: bit-level characterizations of the embedded
operations, proved by `testBit` extensionality. -/

theorem land_distrib_right (a b c : Nat) : (a ||| b) &&& c = (a &&& c) ||| (b &&& c) := by
  apply Nat.eq_of_testBit_eq
  intro i
  simp only [Nat.testBit_land, Nat.testBit_lor]
  cases a.testBit i <;> cases b.testBit i <;> cases c.testBit i <;> rfl

theorem land_mask_idem (x m : Nat) : (x &&& m) &&& m = x &&& m := by
  apply Nat.eq_of_testBit_eq
  intro i
  simp only [Nat.testBit_land]
  cases x.testBit i <;> cases m.testBit i <;> rfl

theorem testBit_compl32 (m i : Nat) :
    (compl32 m).testBit i = ((m.testBit i).xor (decide (i < 32))) := by
  simp only [compl32, num_bits_in_register, Nat.testBit_xor, Nat.testBit_two_pow_sub_one]

theorem testBit_bitmask {f : field} (hwf : field_wf f) (i : Nat) :
    (bitmask f).testBit i =
      (decide (f.StartBit ≤ i) && decide (i < f.StartBit + f.LengthInBits)) := by
  obtain ⟨h1, h2⟩ := hwf
  simp only [bitmask, num_bits_in_register, Nat.testBit_mod_two_pow, Nat.testBit_shiftLeft,
    Nat.testBit_shiftRight, Nat.testBit_two_pow_sub_one]
  by_cases hs : f.StartBit ≤ i <;> by_cases hi : i < f.StartBit + f.LengthInBits <;>
    simp [hs, hi] <;> omega

theorem enc_testBit_imp_bitmask {f : field} {v i : Nat}
    (h : (get_register_value_from_field_value f v).testBit i = true) :
    (bitmask f).testBit i = true := by
  simp only [get_register_value_from_field_value, Nat.testBit_land, Bool.and_eq_true] at h
  exact h.2

theorem enc_eq_shiftLeft {f : field} {v : Nat} (hwf : field_wf f)
    (hv : v < 2 ^ f.LengthInBits) :
    get_register_value_from_field_value f v = v <<< f.StartBit := by
  apply Nat.eq_of_testBit_eq
  intro i
  have hvb : ∀ j, f.LengthInBits ≤ j → v.testBit j = false := by
    intro j hj
    exact Nat.testBit_lt_two_pow (lt_of_lt_of_le hv (Nat.pow_le_pow_right (by norm_num) hj))
  obtain ⟨h1, h2⟩ := hwf
  simp only [get_register_value_from_field_value, num_bits_in_register, Nat.testBit_land,
    Nat.testBit_mod_two_pow, Nat.testBit_shiftLeft, testBit_bitmask ⟨h1, h2⟩]
  by_cases hs : f.StartBit ≤ i
  · cases hb : v.testBit (i - f.StartBit) with
    | false => simp [hs, hb]
    | true =>
      have hlen : i - f.StartBit < f.LengthInBits := by
        by_contra hc
        rw [hvb _ (by omega)] at hb
        exact absurd hb (by simp)
      have hi32 : i < 32 := by omega
      simp [hs, hb, hi32]
      omega
  · simp [hs]

theorem testBit_combined_mask (fs : List field) (i : Nat) :
    (combined_mask fs).testBit i = fs.any (fun f => (bitmask f).testBit i) := by
  induction fs with
  | nil => simp [combined_mask]
  | cons f fs ih =>
    show (bitmask f ||| combined_mask fs).testBit i = _
    simp only [Nat.testBit_lor, ih, List.any_cons]

theorem testBit_combined_values (fvs : List (field × Nat)) (i : Nat) :
    (combined_values fvs).testBit i =
      fvs.any (fun fv => (get_register_value_from_field_value fv.1 fv.2).testBit i) := by
  induction fvs with
  | nil => simp [combined_values]
  | cons fv fvs ih =>
    show (get_register_value_from_field_value fv.1 fv.2 ||| combined_values fvs).testBit i = _
    simp only [Nat.testBit_lor, ih, List.any_cons]

theorem bitmask_testBit_combined {f : field} {fs : List field} (hmem : f ∈ fs) {i : Nat}
    (h : (bitmask f).testBit i = true) : (combined_mask fs).testBit i = true := by
  rw [testBit_combined_mask]
  exact List.any_eq_true.mpr ⟨f, hmem, h⟩

theorem combined_values_testBit_imp {fvs : List (field × Nat)} {i : Nat}
    (h : (combined_values fvs).testBit i = true) :
    (combined_mask (fvs.map Prod.fst)).testBit i = true := by
  rw [testBit_combined_values] at h
  rw [testBit_combined_mask]
  rcases List.any_eq_true.mp h with ⟨fv, hmem, hbit⟩
  exact List.any_eq_true.mpr ⟨fv.1, List.mem_map_of_mem _ hmem, enc_testBit_imp_bitmask hbit⟩

theorem land_eq_zero_of_testBit {a b : Nat}
    (h : ∀ i, a.testBit i = true → b.testBit i = false) : a &&& b = 0 := by
  apply Nat.eq_of_testBit_eq
  intro i
  simp only [Nat.testBit_land, Nat.zero_testBit]
  cases hab : a.testBit i with
  | false => simp
  | true => simp [h i hab]

theorem testBit_land_eq_zero {a b : Nat} (h : a &&& b = 0) (i : Nat)
    (ha : a.testBit i = true) : b.testBit i = false := by
  have h2 := congrArg (fun n => n.testBit i) h
  simp only [Nat.testBit_land, Nat.zero_testBit] at h2
  cases hb : b.testBit i with
  | false => rfl
  | true => rw [ha, hb] at h2; exact absurd h2 (by simp)

theorem enc_land_eq_zero {f : field} {M : Nat} (v : Nat) (h : bitmask f &&& M = 0) :
    get_register_value_from_field_value f v &&& M = 0 := by
  apply land_eq_zero_of_testBit
  intro i hi
  exact testBit_land_eq_zero h i (enc_testBit_imp_bitmask hi)

theorem combined_values_land_eq_zero {l : List (field × Nat)} {M : Nat}
    (h : ∀ fv ∈ l, bitmask fv.1 &&& M = 0) : combined_values l &&& M = 0 := by
  apply land_eq_zero_of_testBit
  intro i hi
  rw [testBit_combined_values] at hi
  rcases List.any_eq_true.mp hi with ⟨fv, hmem, hbit⟩
  exact testBit_land_eq_zero (h fv hmem) i (enc_testBit_imp_bitmask hbit)

theorem combined_values_land_bitmask {fvs : List (field × Nat)} {f : field} {v : Nat}
    (hmem : (f, v) ∈ fvs)
    (hwf : ∀ fv ∈ fvs, field_wf fv.1 ∧ fv.2 < 2 ^ fv.1.LengthInBits)
    (hdisj : fvs.Pairwise (fun a b => bitmask a.1 &&& bitmask b.1 = 0)) :
    combined_values fvs &&& bitmask f = v <<< f.StartBit := by
  induction fvs with
  | nil => cases hmem
  | cons gu rest ih =>
    rw [List.pairwise_cons] at hdisj
    have hcv : combined_values (gu :: rest) =
        get_register_value_from_field_value gu.1 gu.2 ||| combined_values rest := rfl
    rcases List.mem_cons.mp hmem with heq | hmem2
    · rw [hcv, land_distrib_right, ← heq]
      have hz : combined_values rest &&& bitmask f = 0 := by
        apply combined_values_land_eq_zero
        intro fv hfv
        have hd := hdisj.1 fv hfv
        rw [← heq] at hd
        rw [Nat.land_comm]
        exact hd
      have hself : get_register_value_from_field_value f v &&& bitmask f =
          get_register_value_from_field_value f v := by
        show (((v <<< f.StartBit) % 2 ^ num_bits_in_register) &&& bitmask f) &&& bitmask f = _
        exact land_mask_idem _ _
      rw [hz, hself, Nat.or_zero,
        enc_eq_shiftLeft ((hwf (f, v) hmem).1) ((hwf (f, v) hmem).2)]
    · rw [hcv, land_distrib_right]
      have hz : get_register_value_from_field_value gu.1 gu.2 &&& bitmask f = 0 := by
        apply enc_land_eq_zero
        exact hdisj.1 (f, v) hmem2
      rw [hz, Nat.zero_or]
      exact ih hmem2 (fun fv hfv => hwf fv (List.mem_cons_of_mem _ hfv)) hdisj.2

theorem rmw_land_bitmask_eq_zero {fs : List field} {f : field} (current : Nat)
    (hmem : f ∈ fs) (hwf : field_wf f) :
    (compl32 (combined_mask fs) &&& current) &&& bitmask f = 0 := by
  apply land_eq_zero_of_testBit
  intro i hi
  cases hb : (bitmask f).testBit i with
  | false => rfl
  | true =>
    exfalso
    have hcm : (combined_mask fs).testBit i = true := bitmask_testBit_combined hmem hb
    have hlt : i < 32 := by
      have hc := testBit_bitmask hwf i
      rw [hb] at hc
      have h2 := hwf.2
      by_cases hs : f.StartBit ≤ i <;> by_cases h3 : i < f.StartBit + f.LengthInBits <;>
        simp [hs, h3] at hc ⊢ <;> omega
    simp only [Nat.testBit_land, testBit_compl32, hcm, hlt] at hi
    simp at hi

theorem stored_testBit_outside {fvs : List (field × Nat)} {current i : Nat}
    (hcur : current < 2 ^ 32)
    (hCM : (combined_mask (fvs.map Prod.fst)).testBit i = false) :
    (combined_values fvs |||
      (compl32 (combined_mask (fvs.map Prod.fst)) &&& current)).testBit i
      = current.testBit i := by
  have hcv : (combined_values fvs).testBit i = false := by
    cases h : (combined_values fvs).testBit i with
    | false => rfl
    | true => rw [combined_values_testBit_imp h] at hCM; exact absurd hCM (by simp)
  simp only [Nat.testBit_lor, Nat.testBit_land, testBit_compl32, hcv, hCM]
  by_cases hlt : i < 32
  · simp [hlt]
  · have hc : current.testBit i = false :=
      Nat.testBit_lt_two_pow
        (lt_of_lt_of_le hcur (Nat.pow_le_pow_right (by norm_num) (by omega)))
    simp [hlt, hc]

theorem decode_stored {fvs : List (field × Nat)} {f : field} {v : Nat} (current : Nat)
    (hmem : (f, v) ∈ fvs)
    (hwf : ∀ fv ∈ fvs, field_wf fv.1 ∧ fv.2 < 2 ^ fv.1.LengthInBits)
    (hdisj : fvs.Pairwise (fun a b => bitmask a.1 &&& bitmask b.1 = 0)) :
    get_field_value_from_register_value f
      (combined_values fvs |||
        (compl32 (combined_mask (fvs.map Prod.fst)) &&& current)) = v := by
  show (_ &&& bitmask f) >>> f.StartBit = v
  rw [land_distrib_right, combined_values_land_bitmask hmem hwf hdisj,
    rmw_land_bitmask_eq_zero current (List.mem_map_of_mem Prod.fst hmem) ((hwf (f, v) hmem).1),
    Nat.or_zero, Nat.shiftLeft_shiftRight]

theorem combined_clear_values_eq_spec {fs : List field} (hwf : ∀ f ∈ fs, field_wf f) :
    combined_clear_values fs = spec_combined_clear_values fs := by
  induction fs with
  | nil => rfl
  | cons f fs ih =>
    show get_register_value_from_field_value f (clear_value f) ||| combined_clear_values fs =
      (if f.TypeOfField = field_type.write_clear then 1 <<< f.StartBit else 0) |||
        spec_combined_clear_values fs
    rw [ih (fun g hg => hwf g (List.mem_cons_of_mem _ hg))]
    congr 1
    have hwff := hwf f (List.mem_cons_self _ _)
    by_cases hwc : f.TypeOfField = field_type.write_clear
    · have h1 : clear_value f = 1 := by simp [clear_value, is_write_clear, hwc]
      have h2 : (1 : Nat) < 2 ^ f.LengthInBits := by
        have h3 : (2 : Nat) ^ 1 ≤ 2 ^ f.LengthInBits :=
          Nat.pow_le_pow_right (by norm_num) hwff.1
        omega
      rw [h1, if_pos hwc, enc_eq_shiftLeft hwff h2]
    · have h1 : clear_value f = 0 := by simp [clear_value, is_write_clear, hwc]
      rw [h1, if_neg hwc]
      simp [get_register_value_from_field_value, Nat.zero_shiftLeft]

theorem testBit_get_bit_positions_bitmask {ps : List Nat} (h : ∀ p ∈ ps, p < 32) (i : Nat) :
    (get_bit_positions_bitmask ps).testBit i = decide (i ∈ ps) := by
  induction ps with
  | nil => simp [get_bit_positions_bitmask]
  | cons p ps ih =>
    show (((1 <<< p) % 2 ^ num_bits_in_register) ||| get_bit_positions_bitmask ps).testBit i = _
    have hp : p < 32 := h p (List.mem_cons_self _ _)
    have h2 : (1 <<< p : Nat) = 2 ^ p := by rw [Nat.shiftLeft_eq, Nat.one_mul]
    simp only [Nat.testBit_lor, Nat.testBit_mod_two_pow, h2, num_bits_in_register,
      ih (fun q hq => h q (List.mem_cons_of_mem _ hq)), List.mem_cons]
    by_cases hip : p = i
    · subst hip
      simp [hp, Nat.testBit_two_pow_self]
    · have h3 : (2 ^ p : Nat).testBit i = false := Nat.testBit_two_pow_of_ne hip
      have h4 : ¬(i = p) := fun hc => hip hc.symm
      simp [h3, h4]

/-! Claim theorems. -/

/-- C5: for every field with start bit s and width w, w ≥ 1 and
s + w ≤ 32, the precomputed bitmask equals (2^w − 1) shifted left by s;
bit i is set exactly for s ≤ i < s + w, so the mask has exactly w set
bits, the lowest at position s and zero elsewhere. This includes the
full-width case w = 32. -/
theorem bitmask_spec (f : field) (h1 : 1 ≤ f.LengthInBits)
    (h2 : f.StartBit + f.LengthInBits ≤ 32) :
    bitmask f = (2 ^ f.LengthInBits - 1) <<< f.StartBit ∧
    ∀ i, (bitmask f).testBit i =
      (decide (f.StartBit ≤ i) && decide (i < f.StartBit + f.LengthInBits)) := by
  constructor
  · apply Nat.eq_of_testBit_eq
    intro i
    rw [testBit_bitmask ⟨h1, h2⟩]
    simp only [Nat.testBit_shiftLeft, Nat.testBit_two_pow_sub_one]
    by_cases hs : f.StartBit ≤ i <;> by_cases hi : i < f.StartBit + f.LengthInBits <;>
      simp [hs, hi] <;> omega
  · exact testBit_bitmask ⟨h1, h2⟩

/-- Witness for C5, at the full-width field (s = 0, w = 32). -/
theorem bitmask_spec_witness :
    1 ≤ field32.LengthInBits ∧ field32.StartBit + field32.LengthInBits ≤ 32 ∧
    bitmask field32 = (2 ^ field32.LengthInBits - 1) <<< field32.StartBit :=
  ⟨by decide, by decide, (bitmask_spec field32 (by decide) (by decide)).1⟩

/-- C6: for every field with w ≥ 1 and s + w ≤ 32 and every 32-bit value
v, decoding the encoding of the truncated value is the identity:
get_field_value_from_register_value
(get_register_value_from_field_value (v &&& (2^w − 1))) = v &&& (2^w − 1). -/
theorem field_value_roundtrip (f : field) (v : Nat) (h1 : 1 ≤ f.LengthInBits)
    (h2 : f.StartBit + f.LengthInBits ≤ 32) (hv : v < 2 ^ 32) :
    get_field_value_from_register_value f
      (get_register_value_from_field_value f (v &&& (2 ^ f.LengthInBits - 1))) =
      v &&& (2 ^ f.LengthInBits - 1) := by
  set u := v &&& (2 ^ f.LengthInBits - 1) with hu_def
  have hpos : 0 < 2 ^ f.LengthInBits := Nat.pos_pow_of_pos _ (by norm_num)
  have hu : u < 2 ^ f.LengthInBits := by
    have h3 : u ≤ 2 ^ f.LengthInBits - 1 := Nat.and_le_right
    omega
  have henc : get_register_value_from_field_value f u = u <<< f.StartBit :=
    enc_eq_shiftLeft ⟨h1, h2⟩ hu
  have hlt : u <<< f.StartBit < 2 ^ 32 := by
    rw [Nat.shiftLeft_eq]
    have h4 : u * 2 ^ f.StartBit < 2 ^ f.LengthInBits * 2 ^ f.StartBit :=
      mul_lt_mul_of_pos_right hu (Nat.pos_pow_of_pos _ (by norm_num))
    have h5 : (2 : Nat) ^ f.LengthInBits * 2 ^ f.StartBit =
        2 ^ (f.LengthInBits + f.StartBit) := (pow_add 2 _ _).symm
    have h6 : (2 : Nat) ^ (f.LengthInBits + f.StartBit) ≤ 2 ^ 32 :=
      Nat.pow_le_pow_right (by norm_num) (by omega)
    omega
  have h7 : (u <<< f.StartBit) &&& bitmask f = u <<< f.StartBit := by
    have h8 : (u <<< f.StartBit) % 2 ^ num_bits_in_register = u <<< f.StartBit :=
      Nat.mod_eq_of_lt hlt
    calc (u <<< f.StartBit) &&& bitmask f
        = ((u <<< f.StartBit) % 2 ^ num_bits_in_register) &&& bitmask f := by rw [h8]
      _ = get_register_value_from_field_value f u := rfl
      _ = u <<< f.StartBit := henc
  rw [henc]
  show ((u <<< f.StartBit) &&& bitmask f) >>> f.StartBit = u
  rw [h7, Nat.shiftLeft_shiftRight]

/-- Witness for C6 at field A = bits [0,4) and v = 0xAB. -/
theorem field_value_roundtrip_witness :
    1 ≤ fieldA.LengthInBits ∧ (0xAB : Nat) < 2 ^ 32 ∧
    get_field_value_from_register_value fieldA
      (get_register_value_from_field_value fieldA (0xAB &&& (2 ^ fieldA.LengthInBits - 1))) =
      0xAB &&& (2 ^ fieldA.LengthInBits - 1) :=
  ⟨by decide, by decide, field_value_roundtrip fieldA 0xAB (by decide) (by decide) (by decide)⟩

/-- C2 counterexample: the §4.2 table row for write_clear says its
readable capability is no, but in field_types.hpp `is_readable` includes
write_clear, so the readability check accepts a write_clear field. -/
theorem write_clear_readable_counterexample :
    is_readable field_type.write_clear = true ∧
    are_fields_readable [fieldC] = true := by decide

/-- C2 (amended): the readable capability of a write_clear field is yes in
the code, so every list of write_clear fields passes the definition-time
readability check used by get_fields, is_any_bit_set and
are_all_bits_set. -/
theorem write_clear_fields_pass_readability (fs : List field)
    (h : ∀ f ∈ fs, f.TypeOfField = field_type.write_clear) :
    are_fields_readable fs = true := by
  rw [are_fields_readable, List.all_eq_true]
  intro f hf
  rw [h f hf]
  decide

/-- Witness for C2 at the singleton write_clear field. -/
theorem write_clear_fields_pass_readability_witness :
    (∀ f ∈ [fieldC], f.TypeOfField = field_type.write_clear) ∧
    are_fields_readable [fieldC] = true :=
  ⟨by decide, write_clear_fields_pass_readability [fieldC] (by decide)⟩

/-- C8: scenario — write_clear field C at bits [28,32) on a register
with atomic operations supported: clear_fields({C}) on the
zero-initialized simulated register loads and stores at the plain
address, storing 1 <<< 28; every issued access is at the plain address,
which differs from the atomic-clear address. -/
theorem clear_fields_write_clear_scenario :
    clear_fields regC [fieldC] 0 =
      [access.load (register_address regC),
       access.store (register_address regC) (1 <<< 28)] ∧
    (clear_fields regC [fieldC] 0).all
      (fun a => access_addr a == register_address regC) = true ∧
    (register_address_atomic_clear regC == register_address regC) = false ∧
    regC.SupportsAtomicBitOperations = true := by decide

/-- C7: get_fields with pairwise-distinct readable fields of the
register issues exactly one load and returns the ordered list mapping
each requested field to (loaded &&& bitmask) >>> start; when the
register has exactly one field overall, the decode is the unmasked
loaded >>> start instead. -/
theorem get_fields_spec (r : register) (f : field) (rest : List field) (current : Nat)
    (hin : are_fields_in_register r (f :: rest) = true)
    (hread : are_fields_readable (f :: rest) = true)
    (hnodup : (f :: rest).Nodup) :
    (get_fields r (f :: rest) current).1 = [access.load (register_address r)] ∧
    (r.RegisterFields.length = 1 →
      (get_fields r (f :: rest) current).2 = [(f, current >>> f.StartBit)]) ∧
    (r.RegisterFields.length ≠ 1 →
      (get_fields r (f :: rest) current).2 =
        (f :: rest).map (fun g => (g, (current &&& bitmask g) >>> g.StartBit))) := by
  refine ⟨?_, ?_, ?_⟩
  · unfold get_fields
    by_cases h1 : r.RegisterFields.length = 1 <;> simp [h1]
  · intro h1
    simp [get_fields, h1, get_field_value_from_register_value_no_bitmask]
  · intro h1
    simp [get_fields, h1, get_field_value_from_register_value]

/-- Witness for C7: the spec §8 scenario (field A = bits [0,4)
read_write, field B = bits [4,8) read_only reset 0xA, raw value 0xA3)
yields A = 0x3, B = 0xA. -/
theorem get_fields_spec_witness :
    are_fields_in_register regAB [fieldA, fieldB] = true ∧
    are_fields_readable [fieldA, fieldB] = true ∧
    (get_fields regAB [fieldA, fieldB] 0xA3).2 = [(fieldA, 0x3), (fieldB, 0xA)] := by
  refine ⟨by decide, by decide, ?_⟩
  have h := (get_fields_spec regAB fieldA [fieldB] 0xA3 (by decide) (by decide)
    (by decide)).2.2 (by decide)
  rw [h]
  decide

/-- C4: set_fields_overwrite with pairwise-distinct settable fields of
the register performs no load and issues exactly one store at the plain
address of (reset_value &&& ~combined_mask) ||| combined_values, so
every bit outside the combined bitmask of the supplied fields is written with
the reset-value bit, not the current register bit. -/
theorem set_fields_overwrite_spec (r : register) (fvs : List (field × Nat))
    (hne : fvs ≠ [])
    (hreset : r.ValueOnReset < 2 ^ 32)
    (hin : are_fields_in_register r (fvs.map Prod.fst) = true)
    (hset : are_fields_settable (fvs.map Prod.fst) = true)
    (hnodup : (fvs.map Prod.fst).Nodup) :
    set_fields_overwrite r fvs =
      [access.store (register_address r)
        ((r.ValueOnReset &&& compl32 (combined_mask (fvs.map Prod.fst))) |||
          combined_values fvs)] ∧
    ∀ i, (combined_mask (fvs.map Prod.fst)).testBit i = false →
      ((r.ValueOnReset &&& compl32 (combined_mask (fvs.map Prod.fst))) |||
        combined_values fvs).testBit i = r.ValueOnReset.testBit i := by
  have hval : combined_values fvs |||
      (compl32 (combined_mask (fvs.map Prod.fst)) &&& r.ValueOnReset) =
      (r.ValueOnReset &&& compl32 (combined_mask (fvs.map Prod.fst))) |||
        combined_values fvs := by
    rw [Nat.lor_comm, Nat.land_comm]
  constructor
  · show [access.store (register_address r)
      (combined_values fvs ||| (compl32 (combined_mask (fvs.map Prod.fst)) &&& r.ValueOnReset))] = _
    rw [hval]
  · intro i hi
    rw [← hval]
    exact stored_testBit_outside hreset hi

/-- Witness for C4 at a register with reset value 0x12345678 and one
supplied field at bits [0,4). -/
theorem set_fields_overwrite_spec_witness :
    regDisj.ValueOnReset < 2 ^ 32 ∧
    set_fields_overwrite regDisj [(fieldA, 5)] =
      [access.store (register_address regDisj)
        ((regDisj.ValueOnReset &&& compl32 (combined_mask [fieldA])) |||
          combined_values [(fieldA, 5)])] :=
  ⟨by decide, (set_fields_overwrite_spec regDisj [(fieldA, 5)] (by decide) (by decide)
    (by decide) (by decide) (by decide)).1⟩

/-- C9: the intended behavior of the write-only set_bits at a concrete
failing input — position 0 inside the write-only field of regWO: a
single store of the OR-mask of the positions at the plain address, no load,
and no access at the atomic SET address even though the register
supports atomic operations. (Any instantiation of the checked set_bits
in the source is ill-formed; see the development notes on
`is_write_only`.) -/
theorem write_only_set_bits_failing_input :
    is_bit_position_in_any_write_only_field regWO 0 = true ∧
    write_only_set_bits regWO [0] = [access.store (register_address regWO) 1] ∧
    (write_only_set_bits regWO [0]).all
      (fun a => access_addr a == register_address regWO) = true ∧
    (register_address_atomic_set regWO == register_address regWO) = false ∧
    regWO.SupportsAtomicBitOperations = true := by decide

/-- C10: the nested runtime-argument entry points (the raw value store
of register_write_base and the runtime-position bit operations shared
with the checked operations through the impl functions) are total: for
every register, every position list and every value — with no
field-membership, permission, duplicate-position or range validation —
they perform the hardware access with the mask computed from the given
positions. -/
theorem unchecked_operations_spec (r : register) (ps : List Nat) (current v : Nat) :
    unchecked_set r v = [access.store (register_address r) v] ∧
    (r.SupportsAtomicBitOperations = true →
      set_bits_impl r ps current =
        [access.store (register_address_atomic_set r) (get_bit_positions_bitmask ps)] ∧
      clear_bits_impl r ps current =
        [access.store (register_address_atomic_clear r) (get_bit_positions_bitmask ps)] ∧
      toggle_bits_impl r ps current =
        [access.store (register_address_atomic_xor r) (get_bit_positions_bitmask ps)]) ∧
    (r.SupportsAtomicBitOperations = false →
      set_bits_impl r ps current =
        [access.load (register_address r),
         access.store (register_address r) (get_bit_positions_bitmask ps ||| current)] ∧
      clear_bits_impl r ps current =
        [access.load (register_address r),
         access.store (register_address r)
           (compl32 (get_bit_positions_bitmask ps) &&& current)] ∧
      toggle_bits_impl r ps current =
        [access.load (register_address r),
         access.store (register_address r) (get_bit_positions_bitmask ps ^^^ current)]) ∧
    is_any_bit_set_impl r ps current =
      ([access.load (register_address r)],
       decide (¬ current &&& get_bit_positions_bitmask ps = 0)) ∧
    are_all_bits_set_impl r ps current =
      ([access.load (register_address r)],
       decide (current &&& get_bit_positions_bitmask ps = get_bit_positions_bitmask ps)) ∧
    ((∀ p ∈ ps, p < 32) →
      ∀ i, (get_bit_positions_bitmask ps).testBit i = decide (i ∈ ps)) := by
  refine ⟨rfl, ?_, ?_, ?_, ?_, ?_⟩
  · intro h
    refine ⟨?_, ?_, ?_⟩ <;> simp [set_bits_impl, clear_bits_impl, toggle_bits_impl, h]
  · intro h
    refine ⟨?_, ?_, ?_⟩ <;> simp [set_bits_impl, clear_bits_impl, toggle_bits_impl, h]
  · by_cases h : current &&& get_bit_positions_bitmask ps = 0 <;>
      simp [is_any_bit_set_impl, h, bne]
  · by_cases h : current &&& get_bit_positions_bitmask ps = get_bit_positions_bitmask ps <;>
      simp [are_all_bits_set_impl, h]
  · intro h i
    exact testBit_get_bit_positions_bitmask h i

/-- Witness for C10 at an argument list the checked operations would
reject (duplicate position 5, which lies in no field of regC). -/
theorem unchecked_operations_spec_witness :
    unchecked_set regC 7 = [access.store (register_address regC) 7] ∧
    regC.SupportsAtomicBitOperations = true ∧
    set_bits_impl regC [5, 5] 0 =
      [access.store (register_address_atomic_set regC) (get_bit_positions_bitmask [5, 5])] ∧
    (get_bit_positions_bitmask [5, 5]).testBit 5 = true := by
  refine ⟨(unchecked_operations_spec regC [5, 5] 0 7).1, by decide,
    ((unchecked_operations_spec regC [5, 5] 0 7).2.1 (by decide)).1, ?_⟩
  have h := (unchecked_operations_spec regC [5, 5] 0 7).2.2.2.2.2 (by decide) 5
  rw [h]
  decide

/-- C1: clear_fields with nonempty, in-register, clearable, well-formed
fields: when the register supports atomic operations and no requested
field is write_clear, the operation issues exactly one store of the OR
of the field bitmasks at the atomic CLEAR address and performs no
load; otherwise it issues one load followed by one store at the plain
address of (loaded &&& ~combined_mask) ||| combined_clear_values, where
the combined clear values contribute 1 shifted to the start bit for each
write_clear field and 0 for each read_write field. -/
theorem clear_fields_spec (r : register) (fs : List field) (current : Nat)
    (hne : fs ≠ [])
    (hin : are_fields_in_register r fs = true)
    (hclear : are_fields_clearable fs = true)
    (hwf : ∀ f ∈ fs, field_wf f) :
    (r.SupportsAtomicBitOperations = true ∧
        (∀ f ∈ fs, f.TypeOfField ≠ field_type.write_clear) →
      clear_fields r fs current =
        [access.store (register_address_atomic_clear r) (combined_mask fs)]) ∧
    ((r.SupportsAtomicBitOperations = false ∨
        ∃ f ∈ fs, f.TypeOfField = field_type.write_clear) →
      clear_fields r fs current =
        [access.load (register_address r),
         access.store (register_address r)
           ((current &&& compl32 (combined_mask fs)) |||
             spec_combined_clear_values fs)]) := by
  constructor
  · rintro ⟨hat, hnwc⟩
    have h2 : fs.any (fun f => is_write_clear f.TypeOfField) = false := by
      rw [List.any_eq_false]
      intro f hf
      simp only [is_write_clear, beq_iff_eq]
      exact hnwc f hf
    have hcond : (r.SupportsAtomicBitOperations &&
        !(fs.any (fun f => is_write_clear f.TypeOfField))) = true := by
      rw [hat, h2]
      rfl
    unfold clear_fields
    rw [if_pos hcond]
  · intro hor
    have hcond : (r.SupportsAtomicBitOperations &&
        !(fs.any (fun f => is_write_clear f.TypeOfField))) = false := by
      rcases hor with h | ⟨f, hf, hwc⟩
      · rw [h]
        rfl
      · have h2 : fs.any (fun f => is_write_clear f.TypeOfField) = true :=
          List.any_eq_true.mpr ⟨f, hf, by simp [is_write_clear, hwc]⟩
        rw [h2]
        simp
    unfold clear_fields
    rw [if_neg (by simp [hcond]),
      Nat.land_comm (compl32 (combined_mask fs)) current,
      combined_clear_values_eq_spec hwf]

/-- Witness for C1: the atomic branch, clearing the read-write field
[0,4) of the atomic-capable register regRW. -/
theorem clear_fields_spec_witness :
    are_fields_clearable [fieldA] = true ∧
    regRW.SupportsAtomicBitOperations = true ∧
    clear_fields regRW [fieldA] 0x55 =
      [access.store (register_address_atomic_clear regRW) (combined_mask [fieldA])] :=
  ⟨by decide, by decide,
    (clear_fields_spec regRW [fieldA] 0x55 (by decide) (by decide) (by decide)
      (by decide)).1 ⟨by decide, by decide⟩⟩

/-- C3 counterexample: fieldA = bits [0,4) and fieldB_overlap = bits
[2,6) are pairwise-distinct settable fields of regOverlap and the
supplied values 15 and 0 fit their widths, yet set_fields stores 15 and
the subsequent decode of fieldB_overlap yields 3, not the written 0: the
decode consequence of the claim fails for distinct but overlapping fields. -/
theorem set_fields_overlap_counterexample :
    (fieldA == fieldB_overlap) = false ∧
    are_fields_in_register regOverlap [fieldA, fieldB_overlap] = true ∧
    are_fields_settable [fieldA, fieldB_overlap] = true ∧
    (15 : Nat) < 2 ^ fieldA.LengthInBits ∧
    (0 : Nat) < 2 ^ fieldB_overlap.LengthInBits ∧
    set_fields regOverlap [(fieldA, 15), (fieldB_overlap, 0)] 0 =
      [access.load (register_address regOverlap),
       access.store (register_address regOverlap) 15] ∧
    get_field_value_from_register_value fieldB_overlap 15 = 3 ∧
    ((3 : Nat) == 0) = false := by decide

/-- C3 (amended): set_fields with pairwise-disjoint (hence distinct)
settable fields of the register, each supplied value fitting its field
width, issues exactly one load then one store at the plain address; the
stored value is (loaded &&& ~combined_mask) ||| combined_values; it
agrees with the loaded value on every bit outside the combined mask, and
the decode of each written field yields exactly the value written for
it. -/
theorem set_fields_disjoint_spec (r : register) (fvs : List (field × Nat)) (current : Nat)
    (hne : fvs ≠ [])
    (hcur : current < 2 ^ 32)
    (hin : are_fields_in_register r (fvs.map Prod.fst) = true)
    (hset : are_fields_settable (fvs.map Prod.fst) = true)
    (hwf : ∀ fv ∈ fvs, field_wf fv.1 ∧ fv.2 < 2 ^ fv.1.LengthInBits)
    (hdisj : fvs.Pairwise (fun a b => bitmask a.1 &&& bitmask b.1 = 0)) :
    set_fields r fvs current =
      [access.load (register_address r),
       access.store (register_address r)
         ((current &&& compl32 (combined_mask (fvs.map Prod.fst))) |||
           combined_values fvs)] ∧
    (∀ i, (combined_mask (fvs.map Prod.fst)).testBit i = false →
      ((current &&& compl32 (combined_mask (fvs.map Prod.fst))) |||
        combined_values fvs).testBit i = current.testBit i) ∧
    (∀ fv ∈ fvs, get_field_value_from_register_value fv.1
      ((current &&& compl32 (combined_mask (fvs.map Prod.fst))) |||
        combined_values fvs) = fv.2) := by
  have hval : combined_values fvs |||
      (compl32 (combined_mask (fvs.map Prod.fst)) &&& current) =
      (current &&& compl32 (combined_mask (fvs.map Prod.fst))) |||
        combined_values fvs := by
    rw [Nat.lor_comm, Nat.land_comm]
  refine ⟨?_, ?_, ?_⟩
  · show [access.load (register_address r),
      access.store (register_address r)
        (combined_values fvs |||
          (compl32 (combined_mask (fvs.map Prod.fst)) &&& current))] = _
    rw [hval]
  · intro i hi
    rw [← hval]
    exact stored_testBit_outside hcur hi
  · intro fv hmem
    obtain ⟨f, v⟩ := fv
    rw [← hval]
    exact decode_stored current hmem hwf hdisj

/-- Witness for C3 at two disjoint read-write fields of regDisj with
values 5 and 9 over current value 0x12345678. -/
theorem set_fields_disjoint_spec_witness :
    (0x12345678 : Nat) < 2 ^ 32 ∧
    get_field_value_from_register_value fieldA
      ((0x12345678 &&& compl32 (combined_mask [fieldA, fieldB_rw])) |||
        combined_values [(fieldA, 5), (fieldB_rw, 9)]) = 5 := by
  refine ⟨by decide, ?_⟩
  exact (set_fields_disjoint_spec regDisj [(fieldA, 5), (fieldB_rw, 9)] 0x12345678
    (by decide) (by decide) (by decide) (by decide) (by decide) (by decide)).2.2
    (fieldA, 5) (by decide)

end tsri
